import Mathlib

/-!
Shallow embedding of the time-domain driving-function subsystem of the
sfs-python repository (src/sfs/time/drivingfunction.py), together with
theorems settling the spec claims about it.

Conventions of the embedding:
* Real scalars of the geometric functions are modelled by the Lean reals;
  the purely arithmetic delay-line code (apply_delays, driving_signals)
  is modelled over the rationals so that concrete instances evaluate.
* A numpy (R, C) buffer that is only ever written and scaled one column
  at a time is represented column-major: a list of C columns, each a list
  of R samples.
* numpy primitives used by the source (np.rint, np.linalg.norm, inner1d,
  broadcasting) are embedded directly next to their single use site.
* External collaborators scipy.signal.besselap (of which only the pole
  list is consumed, with gain 1 passed on explicitly) and
  scipy.signal.zpk2sos are parameters of the NFC-HOA functions.
-/

namespace Sfs

/-- A 3-vector of reals; one row of a numpy (N, 3) array. -/
structure Vec3 where
  x : ℝ
  y : ℝ
  z : ℝ

noncomputable instance : Sub Vec3 := ⟨fun a b => ⟨a.x - b.x, a.y - b.y, a.z - b.z⟩⟩

noncomputable instance : Neg Vec3 := ⟨fun a => ⟨-a.x, -a.y, -a.z⟩⟩

instance : Inhabited Vec3 := ⟨⟨0, 0, 0⟩⟩

/-- Elementwise inner product of two 3-vectors: numpy.core.umath_tests.inner1d
applied to one row. -/
noncomputable def inner1d (a b : Vec3) : ℝ := a.x * b.x + a.y * b.y + a.z * b.z

/-- Euclidean norm of a 3-vector: np.linalg.norm applied to one row. -/
noncomputable def vnorm (a : Vec3) : ℝ := Real.sqrt (a.x ^ 2 + a.y ^ 2 + a.z ^ 2)

/-- Azimuth (polar angle of the x, y components) of a 3-vector, as the
argument of the complex number x + i y. -/
noncomputable def azimuth (v : Vec3) : ℝ := Complex.arg ⟨v.x, v.y⟩

/-- Modelled from the spec: the repository module sfs.util is not under src.
Per the spec, the geometry collaborator exposes Cartesian-to-spherical
conversion returning (azimuth, elevation, radius), where azimuth is the
polar angle of the (x, y) components and radius the Euclidean norm. The
elevation component is never consumed by the functions embedded below. -/
noncomputable def cart2sph (v : Vec3) : ℝ × ℝ × ℝ :=
  (azimuth v, Real.arcsin (v.z / vnorm v), vnorm v)

/-- np.rint: round to the nearest integer, ties to the even integer. -/
def rint (q : ℚ) : ℤ :=
  let f : ℤ := ⌊q⌋
  if q - f < 1 / 2 then f
  else if 1 / 2 < q - f then f + 1
  else if f % 2 = 0 then f else f + 1

/-- Line 194: delays_samples = np.rint(fs * delays).astype(int). -/
def delay_samples (delays : List ℚ) (fs : ℚ) : List ℤ :=
  delays.map fun d => rint (fs * d)

/-- One column of the output buffer of apply_delays: a zero-initialized
column of nOut rows after the slice write out[d : d + len(signal), c] = signal
(line 199). -/
def writeColumn (d : ℕ) (signal : List ℚ) (nOut : ℕ) : List ℚ :=
  List.replicate d 0 ++ (signal ++ List.replicate (nOut - (d + signal.length)) 0)

/-- Lines 189-200 of drivingfunction.py. Returns none exactly when delays is
empty, where the numpy reduction delays_samples.min() raises. The buffer is
represented as a list of columns, mirroring the per-channel slice writes. -/
def apply_delays (signal : List ℚ) (delays : List ℚ) (fs : ℚ) :
    Option (List (List ℚ) × ℚ) :=
  match (delay_samples delays fs).min? with
  | none => none
  | some offset_samples =>
      let norm := (delay_samples delays fs).map fun d => d - offset_samples
      let nOut := (norm.max?.getD 0).toNat + signal.length
      some (norm.map fun nd => writeColumn nd.toNat signal nOut,
            (offset_samples : ℚ) / fs)

/-- numpy broadcasting of an (R, C) buffer with a (C,) weight vector:
column c is scaled elementwise by weights[c]. -/
def broadcastMul (d : List (List ℚ)) (weights : List ℚ) : List (List ℚ) :=
  List.zipWith (fun col w => col.map fun v => v * w) d weights

/-- Lines 159-162: d, t_offset = apply_delays(signal, delays, fs);
return d * weights, t_offset. -/
def driving_signals (delays weights signal : List ℚ) (fs : ℚ) :
    Option (List (List ℚ) × ℚ) :=
  match apply_delays signal delays fs with
  | none => none
  | some dt => some (broadcastMul dt.1 weights, dt.2)

/-- Lines 60-69 of drivingfunction.py. -/
noncomputable def wfs_25d_plane (x0 n0 : List Vec3) (n xref : Vec3) (c : ℝ) :
    List ℝ × List ℝ :=
  let g0 := x0.map fun p => Real.sqrt (2 * Real.pi * vnorm (xref - p))
  let delays := x0.map fun p => inner1d n p / c
  let weights := List.zipWith (fun g q => 2 * g * inner1d n q) g0 n0
  (delays, weights)

/-- Lines 120-131 of drivingfunction.py. -/
noncomputable def wfs_25d_point (x0 n0 : List Vec3) (xs xref : Vec3) (c : ℝ) :
    List ℝ × List ℝ :=
  let g0 := x0.map fun p => Real.sqrt (2 * Real.pi * vnorm (xref - p))
  let ds := x0.map fun p => p - xs
  let r := ds.map vnorm
  let delays := r.map fun ri => ri / c
  let weights :=
    List.zipWith (fun gi ri => gi / (2 * Real.pi * ri ^ ((3 : ℝ) / 2)))
      (List.zipWith (fun g i => g * i) g0 (List.zipWith inner1d ds n0)) r
  (delays, weights)

/-- Lines 312-314: N // 2 if max_order is None else max_order. -/
def _max_order_circular_harmonics (N : ℕ) (max_order : Option ℕ) : ℕ :=
  match max_order with
  | none => N / 2
  | some m => m

/-- Lines 203-256 of drivingfunction.py. The sos mapping with keys
0, 1, ..., M is represented as a list of M + 1 cascades indexed by order.
Only the pole list of scipy.signal.besselap is consumed; the gain passed to
zpk2sos is the literal 1, as in the source. -/
noncomputable def nfchoa_25d_plane {S : Type} (besselap : ℕ → List ℂ)
    (zpk2sos : List ℂ → List ℂ → ℝ → S) (x0 : List Vec3) (r0 : ℝ) (npw : Vec3)
    (max_order : Option ℕ) (c fs : ℝ) : ℝ × ℝ × List S × ℝ :=
  let maxOrder1 : Option ℕ := match max_order with
    | none => some (_max_order_circular_harmonics x0.length none)
    | some m => some m
  let phipw := (cart2sph npw).1
  let r0 := (cart2sph x0.headI).2.2
  let M := _max_order_circular_harmonics x0.length maxOrder1
  let T : ℝ := 1 / fs
  let delay := 0 / c
  let weight := 2 * r0
  let sos : List S := (List.range (M + 1)).map fun m =>
    let p := besselap m
    let z0 := p.map fun _ => Complex.exp ((0 : ℂ) * (T : ℂ))
    let zinf := p.map fun sinf => Complex.exp (((c : ℂ) / (r0 : ℂ)) * sinf * (T : ℂ))
    zpk2sos z0 zinf 1
  let phase := phipw - Real.pi
  (delay, weight, sos, phase)

/-- Lines 259-309 of drivingfunction.py, with the same conventions as
nfchoa_25d_plane. -/
noncomputable def nfchoa_25d_point {S : Type} (besselap : ℕ → List ℂ)
    (zpk2sos : List ℂ → List ℂ → ℝ → S) (x0 : List Vec3) (r0 : ℝ) (xs : Vec3)
    (max_order : Option ℕ) (c fs : ℝ) : ℝ × ℝ × List S × ℝ :=
  let maxOrder1 : Option ℕ := match max_order with
    | none => some (_max_order_circular_harmonics x0.length none)
    | some m => some m
  let phi := (cart2sph xs).1
  let r := (cart2sph xs).2.2
  let r0 := (cart2sph x0.headI).2.2
  let M := _max_order_circular_harmonics x0.length maxOrder1
  let T : ℝ := 1 / fs
  let delay := (r - r0) / c
  let weight := 1 / 2 / Real.pi / r
  let sos : List S := (List.range (M + 1)).map fun m =>
    let p := besselap m
    let z0 := p.map fun s0 => Complex.exp (((c : ℂ) / (r : ℂ)) * s0 * (T : ℂ))
    let zinf := p.map fun sinf => Complex.exp (((c : ℂ) / (r0 : ℂ)) * sinf * (T : ℂ))
    zpk2sos z0 zinf 1
  (delay, weight, sos, phi)

/-! General-purpose helper lemmas about lists and the integer order. -/

instance : Std.Antisymm (fun (a b : ℤ) => a ≤ b) := ⟨fun h h2 => le_antisymm h h2⟩

theorem int_min?_spec {l : List ℤ} {m : ℤ} (h : l.min? = some m) :
    m ∈ l ∧ ∀ b ∈ l, m ≤ b :=
  (List.min?_eq_some_iff (fun a => le_refl a) (fun a b => min_choice a b)
    (fun _ _ _ => le_min_iff)).1 h

theorem int_max?_spec {l : List ℤ} {m : ℤ} (h : l.max? = some m) :
    m ∈ l ∧ ∀ b ∈ l, b ≤ m :=
  (List.max?_eq_some_iff (fun a => le_refl a) (fun a b => max_choice a b)
    (fun _ _ _ => max_le_iff)).1 h

theorem getD_map_of_lt {α β : Type} (f : α → β) (l : List α) {i : ℕ}
    (h : i < l.length) (da : α) (db : β) : (l.map f).getD i db = f (l.getD i da) := by
  rw [List.getD_eq_getElem (l.map f) db (by simpa using h), List.getElem_map,
    List.getD_eq_getElem l da h]

theorem getD_mem_of_lt {α : Type} (l : List α) {i : ℕ} (h : i < l.length) (d : α) :
    l.getD i d ∈ l := by
  rw [List.getD_eq_getElem l d h]; exact List.getElem_mem h

theorem getD_zipWith_of_lt {α β γ : Type} (f : α → β → γ) :
    ∀ (as : List α) (bs : List β) (i : ℕ), i < as.length → i < bs.length →
    ∀ (da : α) (db : β) (dc : γ),
    (List.zipWith f as bs).getD i dc = f (as.getD i da) (bs.getD i db)
  | _ :: _, _ :: _, 0, _, _, _, _, _ => rfl
  | _ :: as, _ :: bs, (i + 1), h1, h2, da, db, dc => by
      simpa using getD_zipWith_of_lt f as bs i (by simpa using h1)
        (by simpa using h2) da db dc
  | [], _, _, h1, _, _, _, _ => absurd h1 (by simp)
  | _ :: _, [], _, _, h2, _, _, _ => absurd h2 (by simp)

/-! Structural facts about the buffer columns built by apply_delays. -/

theorem writeColumn_length {d : ℕ} {s : List ℚ} {R : ℕ} (h : d + s.length ≤ R) :
    (writeColumn d s R).length = R := by
  simp [writeColumn]; omega

theorem writeColumn_getD (d : ℕ) (s : List ℚ) (R row : ℕ) :
    (writeColumn d s R).getD row 0 =
      if d ≤ row ∧ row < d + s.length then s.getD (row - d) 0 else 0 := by
  unfold writeColumn
  rcases lt_or_ge row d with h | h
  · rw [List.getD_eq_getElem?_getD, List.getElem?_append_left (by simpa using h),
      List.getElem?_replicate, if_pos h, if_neg (by omega)]
    rfl
  · rw [List.getD_eq_getElem?_getD,
      List.getElem?_append_right (by simpa using h)]
    simp only [List.length_replicate]
    rcases lt_or_ge (row - d) s.length with h2 | h2
    · rw [List.getElem?_append_left (by simpa using h2)]
      rw [List.getD_eq_getElem?_getD]
      rw [if_pos (by omega : d ≤ row ∧ row < d + s.length)]
    · rw [List.getElem?_append_right (by simpa using h2)]
      rw [List.getElem?_replicate,
        if_neg (show ¬(d ≤ row ∧ row < d + s.length) by omega)]
      split <;> rfl

/-- Claim C1: for a non-empty signal, a non-empty delay list and positive fs,
apply_delays rounds fs times each delay to the nearest integer sample count
(ties to even), subtracts the minimum offset_samples, and returns a buffer
with one column per delay and max(normalized) + len(signal) rows per column
in which column c carries the signal exactly in rows
[normalized c, normalized c + len(signal)) and zeros elsewhere, together
with t_offset = offset_samples / fs. -/
theorem apply_delays_ok (signal delays : List ℚ) (fs : ℚ)
    (hs : signal ≠ []) (hd : delays ≠ []) (hfs : 0 < fs) :
    ∃ (out : List (List ℚ)) (off mx : ℤ),
      (delay_samples delays fs).min? = some off ∧
      off ∈ delay_samples delays fs ∧
      (∀ b ∈ delay_samples delays fs, off ≤ b) ∧
      ((delay_samples delays fs).map fun d => d - off).max? = some mx ∧
      mx ∈ ((delay_samples delays fs).map fun d => d - off) ∧
      (∀ b ∈ (delay_samples delays fs).map fun d => d - off, b ≤ mx) ∧
      apply_delays signal delays fs = some (out, (off : ℚ) / fs) ∧
      out.length = delays.length ∧
      ∀ c, c < delays.length →
        rint (fs * delays.getD c 0) - off ≤ mx ∧
        0 ≤ rint (fs * delays.getD c 0) - off ∧
        (out.getD c []).length = mx.toNat + signal.length ∧
        ∀ row : ℕ,
          (out.getD c []).getD row 0 =
            if (rint (fs * delays.getD c 0) - off).toNat ≤ row ∧
               row < (rint (fs * delays.getD c 0) - off).toNat + signal.length
            then signal.getD (row - (rint (fs * delays.getD c 0) - off).toNat) 0
            else 0 := by
  have hds : delay_samples delays fs ≠ [] := by
    simp only [delay_samples, ne_eq, List.map_eq_nil_iff]
    exact hd
  obtain ⟨off, hoff⟩ : ∃ off, (delay_samples delays fs).min? = some off := by
    cases h : (delay_samples delays fs).min? with
    | none => exact absurd (List.min?_eq_none_iff.mp h) hds
    | some v => exact ⟨v, rfl⟩
  obtain ⟨hoffmem, hoffle⟩ := int_min?_spec hoff
  have hnormne : ((delay_samples delays fs).map fun d => d - off) ≠ [] := by
    simp only [ne_eq, List.map_eq_nil_iff]
    exact hds
  obtain ⟨mx, hmx⟩ :
      ∃ mx, ((delay_samples delays fs).map fun d => d - off).max? = some mx := by
    cases h : ((delay_samples delays fs).map fun d => d - off).max? with
    | none => exact absurd (List.max?_eq_none_iff.mp h) hnormne
    | some v => exact ⟨v, rfl⟩
  obtain ⟨hmxmem, hmxge⟩ := int_max?_spec hmx
  have hlends : (delay_samples delays fs).length = delays.length := by
    simp [delay_samples]
  refine ⟨((delay_samples delays fs).map fun d => d - off).map
      (fun nd => writeColumn nd.toNat signal (mx.toNat + signal.length)),
    off, mx, hoff, hoffmem, hoffle, hmx, hmxmem, hmxge, ?_, ?_, ?_⟩
  · unfold apply_delays
    rw [hoff]
    simp only [hmx, Option.getD_some]
  · simp [hlends]
  · intro c hc
    have hc1 : c < (delay_samples delays fs).length := by omega
    have hc2 : c < ((delay_samples delays fs).map fun d => d - off).length := by
      simpa using hc1
    have hdsc : (delay_samples delays fs).getD c 0 = rint (fs * delays.getD c 0) := by
      unfold delay_samples
      exact getD_map_of_lt _ delays (by omega) 0 0
    have hn : ((delay_samples delays fs).map fun d => d - off).getD c 0 =
        rint (fs * delays.getD c 0) - off := by
      rw [getD_map_of_lt _ _ hc1 0 0, hdsc]
    have hmem := getD_mem_of_lt _ hc2 (0 : ℤ)
    rw [hn] at hmem
    have hub : rint (fs * delays.getD c 0) - off ≤ mx := hmxge _ hmem
    have hdsmem := getD_mem_of_lt _ hc1 (0 : ℤ)
    rw [hdsc] at hdsmem
    have hlb : off ≤ rint (fs * delays.getD c 0) := hoffle _ hdsmem
    have hcol : ((((delay_samples delays fs).map fun d => d - off).map
        (fun nd => writeColumn nd.toNat signal (mx.toNat + signal.length))).getD c []) =
        writeColumn (rint (fs * delays.getD c 0) - off).toNat signal
          (mx.toNat + signal.length) := by
      rw [getD_map_of_lt _ _ hc2 0 [], hn]
    refine ⟨hub, by omega, ?_, ?_⟩
    · rw [hcol]
      exact writeColumn_length (by
        have := Int.toNat_le_toNat hub
        omega)
    · intro row
      rw [hcol, writeColumn_getD]

/-- Witness for claim C1 at the concrete input of the claim: delays
[0, -0.001] at fs = 1000 with the one-sample signal [1]. -/
theorem apply_delays_ok_witness :
    ([(1 : ℚ)] ≠ []) ∧ ([(0 : ℚ), -1/1000] ≠ []) ∧ ((0 : ℚ) < 1000) ∧
    (∃ (out : List (List ℚ)) (off mx : ℤ),
      (delay_samples [(0 : ℚ), -1/1000] 1000).min? = some off ∧
      off ∈ delay_samples [(0 : ℚ), -1/1000] 1000 ∧
      (∀ b ∈ delay_samples [(0 : ℚ), -1/1000] 1000, off ≤ b) ∧
      ((delay_samples [(0 : ℚ), -1/1000] 1000).map fun d => d - off).max? = some mx ∧
      mx ∈ ((delay_samples [(0 : ℚ), -1/1000] 1000).map fun d => d - off) ∧
      (∀ b ∈ (delay_samples [(0 : ℚ), -1/1000] 1000).map fun d => d - off, b ≤ mx) ∧
      apply_delays [(1 : ℚ)] [(0 : ℚ), -1/1000] 1000 = some (out, (off : ℚ) / 1000) ∧
      out.length = ([(0 : ℚ), -1/1000]).length ∧
      ∀ c, c < ([(0 : ℚ), -1/1000]).length →
        rint (1000 * ([(0 : ℚ), -1/1000]).getD c 0) - off ≤ mx ∧
        0 ≤ rint (1000 * ([(0 : ℚ), -1/1000]).getD c 0) - off ∧
        (out.getD c []).length = mx.toNat + ([(1 : ℚ)]).length ∧
        ∀ row : ℕ,
          (out.getD c []).getD row 0 =
            if (rint (1000 * ([(0 : ℚ), -1/1000]).getD c 0) - off).toNat ≤ row ∧
               row < (rint (1000 * ([(0 : ℚ), -1/1000]).getD c 0) - off).toNat
                 + ([(1 : ℚ)]).length
            then ([(1 : ℚ)]).getD
              (row - (rint (1000 * ([(0 : ℚ), -1/1000]).getD c 0) - off).toNat) 0
            else 0) :=
  ⟨by simp, by simp, by norm_num,
    apply_delays_ok [(1 : ℚ)] [(0 : ℚ), -1/1000] 1000 (by simp) (by simp) (by norm_num)⟩

/-- Claim C7: driving_signals wraps apply_delays, multiplying every column c
of the returned buffer elementwise by weights[c] and passing the t_offset
through unchanged. -/
theorem driving_signals_ok (delays weights signal : List ℚ) (fs : ℚ)
    (hlen : delays.length = weights.length) (buf : List (List ℚ)) (t : ℚ)
    (happ : apply_delays signal delays fs = some (buf, t)) :
    ∃ wbuf, driving_signals delays weights signal fs = some (wbuf, t) ∧
      wbuf.length = buf.length ∧
      ∀ c row : ℕ, (wbuf.getD c []).getD row 0 =
        (buf.getD c []).getD row 0 * weights.getD c 0 := by
  have hblen : buf.length = delays.length := by
    unfold apply_delays at happ
    cases h : (delay_samples delays fs).min? with
    | none => rw [h] at happ; exact absurd happ (by simp)
    | some off =>
        rw [h] at happ
        simp only [Option.some.injEq, Prod.mk.injEq] at happ
        rw [← happ.1]
        simp [delay_samples]
  refine ⟨broadcastMul buf weights, ?_, ?_, ?_⟩
  · unfold driving_signals
    rw [happ]
  · unfold broadcastMul
    rw [List.length_zipWith]
    omega
  · intro c row
    rcases lt_or_ge c buf.length with hc | hc
    · have hcw : c < weights.length := by omega
      have hcol : (broadcastMul buf weights).getD c [] =
          (buf.getD c []).map fun v => v * weights.getD c 0 := by
        unfold broadcastMul
        exact getD_zipWith_of_lt _ buf weights c hc hcw [] 0 []
      rw [hcol]
      rcases lt_or_ge row (buf.getD c []).length with hr | hr
      · rw [List.getD_eq_getElem _ 0 (by simpa using hr), List.getElem_map,
          List.getD_eq_getElem _ 0 hr]
      · have e1 : (List.map (fun v => v * weights.getD c 0) (buf.getD c [])).getD row 0
            = 0 := List.getD_eq_default _ 0 (by simpa using hr)
        have e2 : (buf.getD c []).getD row 0 = 0 := List.getD_eq_default _ 0 hr
        rw [e1, e2, zero_mul]
    · have h1 : (broadcastMul buf weights).getD c [] = [] := by
        apply List.getD_eq_default
        unfold broadcastMul
        rw [List.length_zipWith]
        omega
      have h2 : buf.getD c [] = [] := List.getD_eq_default buf [] (by omega)
      rw [h1, h2]
      simp

/-- Witness for claim C7 at a concrete input: one channel with delay 0 and
weight 2 applied to the one-sample signal [3] at fs = 1. -/
theorem driving_signals_ok_witness :
    (([(0 : ℚ)]).length = ([(2 : ℚ)]).length) ∧
    (apply_delays [(3 : ℚ)] [(0 : ℚ)] 1 = some ([[3]], 0)) ∧
    (∃ wbuf, driving_signals [(0 : ℚ)] [(2 : ℚ)] [(3 : ℚ)] 1 = some (wbuf, 0) ∧
      wbuf.length = ([[(3 : ℚ)]]).length ∧
      ∀ c row : ℕ, (wbuf.getD c []).getD row 0 =
        (([[(3 : ℚ)]]).getD c []).getD row 0 * ([(2 : ℚ)]).getD c 0) := by
  have happ : apply_delays [(3 : ℚ)] [(0 : ℚ)] 1 = some ([[3]], 0) := by
    have hds : delay_samples [(0 : ℚ)] 1 = [0] := by
      simp only [delay_samples, List.map_cons, List.map_nil]
      unfold rint
      norm_num
    unfold apply_delays
    rw [hds]
    norm_num [writeColumn, List.min?, List.max?, List.replicate]
  exact ⟨rfl, happ,
    driving_signals_ok [(0 : ℚ)] [(2 : ℚ)] [(3 : ℚ)] 1 rfl [[3]] 0 happ⟩

/-! Helper lemmas for the WFS coefficient engine. -/

theorem inner1d_neg_right (a b : Vec3) : inner1d a (-b) = -(inner1d a b) := by
  show a.x * -b.x + a.y * -b.y + a.z * -b.z = -(a.x * b.x + a.y * b.y + a.z * b.z)
  ring

theorem zipWith_weights_neg (n : Vec3) :
    ∀ (gs : List ℝ) (qs : List Vec3),
      List.zipWith (fun g q => 2 * g * inner1d n q) gs (qs.map fun v => -v)
        = (List.zipWith (fun g q => 2 * g * inner1d n q) gs qs).map fun w => -w
  | [], _ => by simp
  | _ :: _, [] => by simp
  | g :: gs, q :: qs => by
      simp only [List.map_cons, List.zipWith_cons_cons]
      refine congrArg₂ _ ?_ (zipWith_weights_neg n gs qs)
      rw [inner1d_neg_right]
      ring

theorem vnorm_axis_x (a : ℝ) (h : 0 ≤ a) : vnorm ⟨a, 0, 0⟩ = a := by
  show Real.sqrt (a ^ 2 + 0 ^ 2 + 0 ^ 2) = a
  rw [show a ^ 2 + 0 ^ 2 + 0 ^ 2 = a ^ 2 by ring, Real.sqrt_sq h]

/-- Claim C5: wfs_25d_plane returns, for each of the N secondary sources,
delay dot(n, x0[i]) / c and weight 2 * g0[i] * dot(n, n0[i]) with
g0[i] = sqrt(2 pi norm(xref - x0[i])); both sequences have length N. -/
theorem wfs_25d_plane_ok (x0 n0 : List Vec3) (n xref : Vec3) (c : ℝ) (N : ℕ)
    (hN : 1 ≤ N) (hx : x0.length = N) (hn : n0.length = N) :
    (wfs_25d_plane x0 n0 n xref c).1.length = N ∧
    (wfs_25d_plane x0 n0 n xref c).2.length = N ∧
    ∀ i, i < N →
      (wfs_25d_plane x0 n0 n xref c).1.getD i 0 =
        inner1d n (x0.getD i default) / c ∧
      (wfs_25d_plane x0 n0 n xref c).2.getD i 0 =
        2 * Real.sqrt (2 * Real.pi * vnorm (xref - x0.getD i default)) *
          inner1d n (n0.getD i default) := by
  unfold wfs_25d_plane
  refine ⟨by simp [hx], by simp [List.length_zipWith, hx, hn], ?_⟩
  intro i hi
  constructor
  · exact getD_map_of_lt _ x0 (by omega) default 0
  · rw [getD_zipWith_of_lt _ _ _ i (by simp [hx]; omega) (by omega) 0 default 0,
      getD_map_of_lt _ x0 (by omega) default 0]

/-- Witness for claim C5 at a concrete one-source array. -/
theorem wfs_25d_plane_ok_witness :
    (1 ≤ 1) ∧ ([(⟨1, 0, 0⟩ : Vec3)].length = 1) ∧
    ([(⟨0, 1, 0⟩ : Vec3)].length = 1) ∧
    ((wfs_25d_plane [⟨1, 0, 0⟩] [⟨0, 1, 0⟩] ⟨0, 1, 0⟩ ⟨0, 0, 0⟩ 343).1.length = 1 ∧
     (wfs_25d_plane [⟨1, 0, 0⟩] [⟨0, 1, 0⟩] ⟨0, 1, 0⟩ ⟨0, 0, 0⟩ 343).2.length = 1 ∧
     ∀ i, i < 1 →
       (wfs_25d_plane [⟨1, 0, 0⟩] [⟨0, 1, 0⟩] ⟨0, 1, 0⟩ ⟨0, 0, 0⟩ 343).1.getD i 0 =
         inner1d ⟨0, 1, 0⟩ (([(⟨1, 0, 0⟩ : Vec3)]).getD i default) / 343 ∧
       (wfs_25d_plane [⟨1, 0, 0⟩] [⟨0, 1, 0⟩] ⟨0, 1, 0⟩ ⟨0, 0, 0⟩ 343).2.getD i 0 =
         2 * Real.sqrt (2 * Real.pi *
             vnorm ((⟨0, 0, 0⟩ : Vec3) - ([(⟨1, 0, 0⟩ : Vec3)]).getD i default)) *
           inner1d ⟨0, 1, 0⟩ (([(⟨0, 1, 0⟩ : Vec3)]).getD i default)) :=
  ⟨le_refl 1, rfl, rfl,
    wfs_25d_plane_ok [⟨1, 0, 0⟩] [⟨0, 1, 0⟩] ⟨0, 1, 0⟩ ⟨0, 0, 0⟩ 343 1
      (le_refl 1) rfl rfl⟩

/-- Claim C4: wfs_25d_point returns, for each of the N secondary sources,
delay norm(x0[i] - xs) / c and weight
g0[i] * dot(x0[i] - xs, n0[i]) / (2 pi norm(x0[i] - xs) ^ (3/2)); both
sequences have length N. -/
theorem wfs_25d_point_ok (x0 n0 : List Vec3) (xs xref : Vec3) (c : ℝ) (N : ℕ)
    (hN : 1 ≤ N) (hx : x0.length = N) (hn : n0.length = N) :
    (wfs_25d_point x0 n0 xs xref c).1.length = N ∧
    (wfs_25d_point x0 n0 xs xref c).2.length = N ∧
    ∀ i, i < N →
      (wfs_25d_point x0 n0 xs xref c).1.getD i 0 =
        vnorm (x0.getD i default - xs) / c ∧
      (wfs_25d_point x0 n0 xs xref c).2.getD i 0 =
        Real.sqrt (2 * Real.pi * vnorm (xref - x0.getD i default)) *
          inner1d (x0.getD i default - xs) (n0.getD i default) /
          (2 * Real.pi * vnorm (x0.getD i default - xs) ^ ((3 : ℝ) / 2)) := by
  unfold wfs_25d_point
  refine ⟨by simp [hx], ?_, ?_⟩
  · simp [List.length_zipWith, hx, hn]
  · intro i hi
    have hri : ((x0.map fun p => p - xs).map vnorm).getD i 0 =
        vnorm (x0.getD i default - xs) := by
      rw [getD_map_of_lt _ _ (by simp [hx]; omega :
            i < (x0.map fun p => p - xs).length) default 0,
        getD_map_of_lt _ x0 (by omega) default default]
    constructor
    · rw [getD_map_of_lt _ _ (by simp [hx]; omega :
            i < ((x0.map fun p => p - xs).map vnorm).length) 0 0,
        hri]
    · rw [getD_zipWith_of_lt _ _ _ i
          (by simp [List.length_zipWith, hx, hn]; omega) (by simp [hx]; omega) 0 0 0,
        getD_zipWith_of_lt _ _ _ i (by simp [hx]; omega)
          (by simp [List.length_zipWith, hx, hn]; omega) 0 0 0,
        getD_zipWith_of_lt _ _ _ i (by simp [hx]; omega) (by omega) default default 0,
        getD_map_of_lt _ x0 (by omega) default 0,
        getD_map_of_lt _ x0 (by omega) default default,
        hri]

/-- Witness for claim C4 at a concrete one-source array. -/
theorem wfs_25d_point_ok_witness :
    (1 ≤ 1) ∧ ([(⟨1, 0, 0⟩ : Vec3)].length = 1) ∧
    ([(⟨1, 0, 0⟩ : Vec3)].length = 1) ∧
    ((wfs_25d_point [⟨1, 0, 0⟩] [⟨1, 0, 0⟩] ⟨0, 0, 0⟩ ⟨0, 0, 0⟩ 343).1.length = 1 ∧
     (wfs_25d_point [⟨1, 0, 0⟩] [⟨1, 0, 0⟩] ⟨0, 0, 0⟩ ⟨0, 0, 0⟩ 343).2.length = 1 ∧
     ∀ i, i < 1 →
       (wfs_25d_point [⟨1, 0, 0⟩] [⟨1, 0, 0⟩] ⟨0, 0, 0⟩ ⟨0, 0, 0⟩ 343).1.getD i 0 =
         vnorm (([(⟨1, 0, 0⟩ : Vec3)]).getD i default - ⟨0, 0, 0⟩) / 343 ∧
       (wfs_25d_point [⟨1, 0, 0⟩] [⟨1, 0, 0⟩] ⟨0, 0, 0⟩ ⟨0, 0, 0⟩ 343).2.getD i 0 =
         Real.sqrt (2 * Real.pi *
             vnorm ((⟨0, 0, 0⟩ : Vec3) - ([(⟨1, 0, 0⟩ : Vec3)]).getD i default)) *
           inner1d (([(⟨1, 0, 0⟩ : Vec3)]).getD i default - ⟨0, 0, 0⟩)
             (([(⟨1, 0, 0⟩ : Vec3)]).getD i default) /
           (2 * Real.pi *
             vnorm (([(⟨1, 0, 0⟩ : Vec3)]).getD i default - ⟨0, 0, 0⟩) ^
               ((3 : ℝ) / 2))) :=
  ⟨le_refl 1, rfl, rfl,
    wfs_25d_point_ok [⟨1, 0, 0⟩] [⟨1, 0, 0⟩] ⟨0, 0, 0⟩ ⟨0, 0, 0⟩ 343 1
      (le_refl 1) rfl rfl⟩

/-- Claim C10: negating every orientation vector n0[i] negates every weight
returned by wfs_25d_plane while leaving the delays unchanged. -/
theorem wfs_25d_plane_n0_flip (x0 n0 : List Vec3) (n xref : Vec3) (c : ℝ) (N : ℕ)
    (hN : 1 ≤ N) (hx : x0.length = N) (hn : n0.length = N) :
    (wfs_25d_plane x0 (n0.map fun v => -v) n xref c).2 =
      ((wfs_25d_plane x0 n0 n xref c).2).map (fun w => -w) ∧
    (wfs_25d_plane x0 (n0.map fun v => -v) n xref c).1 =
      (wfs_25d_plane x0 n0 n xref c).1 := by
  unfold wfs_25d_plane
  exact ⟨zipWith_weights_neg n _ n0, rfl⟩

/-- Witness for claim C10 at a concrete one-source array. -/
theorem wfs_25d_plane_n0_flip_witness :
    (1 ≤ 1) ∧ ([(⟨1, 0, 0⟩ : Vec3)].length = 1) ∧
    ([(⟨0, 1, 0⟩ : Vec3)].length = 1) ∧
    ((wfs_25d_plane [⟨1, 0, 0⟩] (([(⟨0, 1, 0⟩ : Vec3)]).map fun v => -v)
        ⟨0, 1, 0⟩ ⟨0, 0, 0⟩ 343).2 =
      ((wfs_25d_plane [⟨1, 0, 0⟩] [⟨0, 1, 0⟩] ⟨0, 1, 0⟩ ⟨0, 0, 0⟩ 343).2).map
        (fun w => -w) ∧
     (wfs_25d_plane [⟨1, 0, 0⟩] (([(⟨0, 1, 0⟩ : Vec3)]).map fun v => -v)
        ⟨0, 1, 0⟩ ⟨0, 0, 0⟩ 343).1 =
      (wfs_25d_plane [⟨1, 0, 0⟩] [⟨0, 1, 0⟩] ⟨0, 1, 0⟩ ⟨0, 0, 0⟩ 343).1) :=
  ⟨le_refl 1, rfl, rfl,
    wfs_25d_plane_n0_flip [⟨1, 0, 0⟩] [⟨0, 1, 0⟩] ⟨0, 1, 0⟩ ⟨0, 0, 0⟩ 343 1
      (le_refl 1) rfl rfl⟩

/-- Claim C2 (amended): nfchoa_25d_point overwrites its r0 argument with the
radial coordinate of x0[0] (line 296); under the proviso that x0[0] lies at
radial distance r0 from the origin, the returned delay is (r - r0)/c with
r the radial distance of xs, the weight is 1/(2 pi r), the phase is the
azimuth of xs, and in particular for r = 2 r0 and c = 343 the delay is
r0/343. -/
theorem nfchoa_25d_point_ok {S : Type} (besselap : ℕ → List ℂ)
    (zpk2sos : List ℂ → List ℂ → ℝ → S) (x0 : List Vec3) (r0 : ℝ) (xs : Vec3)
    (max_order : Option ℕ) (c fs : ℝ)
    (hr0 : vnorm x0.headI = r0) :
    (nfchoa_25d_point besselap zpk2sos x0 r0 xs max_order c fs).1
        = (vnorm xs - r0) / c ∧
    (nfchoa_25d_point besselap zpk2sos x0 r0 xs max_order c fs).2.1
        = 1 / (2 * Real.pi * vnorm xs) ∧
    (nfchoa_25d_point besselap zpk2sos x0 r0 xs max_order c fs).2.2.2
        = azimuth xs ∧
    (vnorm xs = 2 * r0 ∧ c = 343 →
      (nfchoa_25d_point besselap zpk2sos x0 r0 xs max_order c fs).1 = r0 / 343) := by
  refine ⟨?_, ?_, rfl, ?_⟩
  · show (vnorm xs - vnorm x0.headI) / c = (vnorm xs - r0) / c
    rw [hr0]
  · show 1 / 2 / Real.pi / vnorm xs = 1 / (2 * Real.pi * vnorm xs)
    rw [div_div, div_div, mul_assoc]
  · rintro ⟨h1, h2⟩
    show (vnorm xs - vnorm x0.headI) / c = r0 / 343
    rw [hr0, h1, h2]
    ring

/-- Witness for the amended claim C2 at a concrete array of radius 1 with a
virtual source at radius 2 and c = 343. -/
theorem nfchoa_25d_point_ok_witness :
    (vnorm (List.headI [(⟨1, 0, 0⟩ : Vec3)]) = 1) ∧
    ((nfchoa_25d_point (fun _ => ([] : List ℂ)) (fun _ _ _ => ()) [⟨1, 0, 0⟩] 1
        ⟨2, 0, 0⟩ (some 0) 343 44100).1 = (vnorm ⟨2, 0, 0⟩ - 1) / 343 ∧
     (nfchoa_25d_point (fun _ => ([] : List ℂ)) (fun _ _ _ => ()) [⟨1, 0, 0⟩] 1
        ⟨2, 0, 0⟩ (some 0) 343 44100).2.1 = 1 / (2 * Real.pi * vnorm ⟨2, 0, 0⟩) ∧
     (nfchoa_25d_point (fun _ => ([] : List ℂ)) (fun _ _ _ => ()) [⟨1, 0, 0⟩] 1
        ⟨2, 0, 0⟩ (some 0) 343 44100).2.2.2 = azimuth ⟨2, 0, 0⟩ ∧
     (vnorm (⟨2, 0, 0⟩ : Vec3) = 2 * 1 ∧ (343 : ℝ) = 343 →
       (nfchoa_25d_point (fun _ => ([] : List ℂ)) (fun _ _ _ => ()) [⟨1, 0, 0⟩] 1
          ⟨2, 0, 0⟩ (some 0) 343 44100).1 = 1 / 343)) :=
  have hr0 : vnorm (List.headI [(⟨1, 0, 0⟩ : Vec3)]) = 1 := by
    rw [show List.headI [(⟨1, 0, 0⟩ : Vec3)] = ⟨1, 0, 0⟩ from rfl]
    exact vnorm_axis_x 1 (by norm_num)
  ⟨hr0, nfchoa_25d_point_ok (fun _ => ([] : List ℂ)) (fun _ _ _ => ())
    [⟨1, 0, 0⟩] 1 ⟨2, 0, 0⟩ (some 0) 343 44100 hr0⟩

/-- Counterexample to claim C2 as stated: with x0[0] at radius 1 but
r0 = 2 passed as argument, xs at radius r = 3 and c = 1, the returned delay
is (3 - 1)/1 = 2, not (r - r0)/c = 1, because the function ignores the r0
argument. -/
theorem nfchoa_25d_point_claim_false :
    vnorm (⟨3, 0, 0⟩ : Vec3) = 3 ∧
    (nfchoa_25d_point (fun _ => ([] : List ℂ)) (fun _ _ _ => ()) [⟨1, 0, 0⟩]
        2 ⟨3, 0, 0⟩ (some 0) 1 1).1 ≠ (vnorm ⟨3, 0, 0⟩ - 2) / 1 := by
  have h3 : vnorm (⟨3, 0, 0⟩ : Vec3) = 3 := vnorm_axis_x 3 (by norm_num)
  have h1 : vnorm (⟨1, 0, 0⟩ : Vec3) = 1 := vnorm_axis_x 1 (by norm_num)
  refine ⟨h3, ?_⟩
  show (vnorm ⟨3, 0, 0⟩ - vnorm (List.headI [(⟨1, 0, 0⟩ : Vec3)])) / 1 ≠
    (vnorm ⟨3, 0, 0⟩ - 2) / 1
  rw [show List.headI [(⟨1, 0, 0⟩ : Vec3)] = ⟨1, 0, 0⟩ from rfl, h3, h1]
  norm_num

/-- Claim C3 (amended): nfchoa_25d_plane overwrites its r0 argument with the
radial coordinate of x0[0] (line 241); under the proviso that x0[0] lies at
radial distance r0 from the origin, the returned delay is 0, the weight is
2 r0 and the phase is azimuth(npw) - pi. -/
theorem nfchoa_25d_plane_ok {S : Type} (besselap : ℕ → List ℂ)
    (zpk2sos : List ℂ → List ℂ → ℝ → S) (x0 : List Vec3) (r0 : ℝ) (npw : Vec3)
    (max_order : Option ℕ) (c fs : ℝ)
    (hr0 : vnorm x0.headI = r0) :
    (nfchoa_25d_plane besselap zpk2sos x0 r0 npw max_order c fs).1 = 0 ∧
    (nfchoa_25d_plane besselap zpk2sos x0 r0 npw max_order c fs).2.1 = 2 * r0 ∧
    (nfchoa_25d_plane besselap zpk2sos x0 r0 npw max_order c fs).2.2.2
        = azimuth npw - Real.pi := by
  refine ⟨zero_div c, ?_, rfl⟩
  show 2 * vnorm x0.headI = 2 * r0
  rw [hr0]

/-- Witness for the amended claim C3 at a concrete array of radius 1. -/
theorem nfchoa_25d_plane_ok_witness :
    (vnorm (List.headI [(⟨1, 0, 0⟩ : Vec3)]) = 1) ∧
    ((nfchoa_25d_plane (fun _ => ([] : List ℂ)) (fun _ _ _ => ()) [⟨1, 0, 0⟩] 1
        ⟨0, 1, 0⟩ (some 0) 343 44100).1 = 0 ∧
     (nfchoa_25d_plane (fun _ => ([] : List ℂ)) (fun _ _ _ => ()) [⟨1, 0, 0⟩] 1
        ⟨0, 1, 0⟩ (some 0) 343 44100).2.1 = 2 * 1 ∧
     (nfchoa_25d_plane (fun _ => ([] : List ℂ)) (fun _ _ _ => ()) [⟨1, 0, 0⟩] 1
        ⟨0, 1, 0⟩ (some 0) 343 44100).2.2.2 = azimuth ⟨0, 1, 0⟩ - Real.pi) :=
  have hr0 : vnorm (List.headI [(⟨1, 0, 0⟩ : Vec3)]) = 1 := by
    rw [show List.headI [(⟨1, 0, 0⟩ : Vec3)] = ⟨1, 0, 0⟩ from rfl]
    exact vnorm_axis_x 1 (by norm_num)
  ⟨hr0, nfchoa_25d_plane_ok (fun _ => ([] : List ℂ)) (fun _ _ _ => ())
    [⟨1, 0, 0⟩] 1 ⟨0, 1, 0⟩ (some 0) 343 44100 hr0⟩

/-- Counterexample to claim C3 as stated: with x0[0] at radius 1 but r0 = 5
passed as argument, the returned weight is 2, not 2 r0 = 10, because the
function ignores the r0 argument. -/
theorem nfchoa_25d_plane_claim_false :
    (nfchoa_25d_plane (fun _ => ([] : List ℂ)) (fun _ _ _ => ()) [⟨1, 0, 0⟩]
        5 ⟨0, 1, 0⟩ (some 0) 343 44100).2.1 ≠ 2 * 5 := by
  show 2 * vnorm (List.headI [(⟨1, 0, 0⟩ : Vec3)]) ≠ 2 * 5
  rw [show List.headI [(⟨1, 0, 0⟩ : Vec3)] = ⟨1, 0, 0⟩ from rfl,
    vnorm_axis_x 1 (by norm_num)]
  norm_num

/-- Claim C6 record: with the virtual source at the array center (radius 0),
nfchoa_25d_point raises no error at all; it returns a tuple whose weight is
the division 1/(2 pi 0). In IEEE float arithmetic this is a silent infinity;
in this real-number embedding, where x / 0 = 0, the same returned weight
component evaluates to 0. This contradicts the claim that a typed error is
raised and no value returned. -/
theorem nfchoa_25d_point_center_returns :
    (nfchoa_25d_point (fun _ => ([] : List ℂ)) (fun _ _ _ => ()) [⟨1, 0, 0⟩] 1
        ⟨0, 0, 0⟩ (some 0) 343 44100).1 = -(1 / 343) ∧
    (nfchoa_25d_point (fun _ => ([] : List ℂ)) (fun _ _ _ => ()) [⟨1, 0, 0⟩] 1
        ⟨0, 0, 0⟩ (some 0) 343 44100).2.1 = 1 / 2 / Real.pi / 0 ∧
    (nfchoa_25d_point (fun _ => ([] : List ℂ)) (fun _ _ _ => ()) [⟨1, 0, 0⟩] 1
        ⟨0, 0, 0⟩ (some 0) 343 44100).2.2.1 = [()] ∧
    (nfchoa_25d_point (fun _ => ([] : List ℂ)) (fun _ _ _ => ()) [⟨1, 0, 0⟩] 1
        ⟨0, 0, 0⟩ (some 0) 343 44100).2.2.2 = 0 := by
  have h0 : vnorm (⟨0, 0, 0⟩ : Vec3) = 0 := vnorm_axis_x 0 le_rfl
  have h1 : vnorm (⟨1, 0, 0⟩ : Vec3) = 1 := vnorm_axis_x 1 (by norm_num)
  refine ⟨?_, ?_, rfl, ?_⟩
  · show (vnorm ⟨0, 0, 0⟩ - vnorm (List.headI [(⟨1, 0, 0⟩ : Vec3)])) / 343 = -(1 / 343)
    rw [show List.headI [(⟨1, 0, 0⟩ : Vec3)] = ⟨1, 0, 0⟩ from rfl, h0, h1]
    norm_num
  · show 1 / 2 / Real.pi / vnorm ⟨0, 0, 0⟩ = 1 / 2 / Real.pi / 0
    rw [h0]
  · show azimuth ⟨0, 0, 0⟩ = 0
    show Complex.arg ⟨0, 0⟩ = 0
    rw [show (⟨0, 0⟩ : ℂ) = 0 from Complex.ext rfl rfl, Complex.arg_zero]

/-- Claim C8: every output of nfchoa_25d_plane and nfchoa_25d_point is
independent of the r0 argument, which both functions overwrite with the
radial coordinate of x0[0] before any use. -/
theorem nfchoa_r0_independent {S : Type} (besselap : ℕ → List ℂ)
    (zpk2sos : List ℂ → List ℂ → ℝ → S) (x0 : List Vec3) (r0a r0b : ℝ)
    (npw xs : Vec3) (max_order : Option ℕ) (c fs : ℝ) :
    nfchoa_25d_plane besselap zpk2sos x0 r0a npw max_order c fs =
      nfchoa_25d_plane besselap zpk2sos x0 r0b npw max_order c fs ∧
    nfchoa_25d_point besselap zpk2sos x0 r0a xs max_order c fs =
      nfchoa_25d_point besselap zpk2sos x0 r0b xs max_order c fs :=
  ⟨rfl, rfl⟩

/-- Claim C9: both NFC-HOA designers return a filter-bank mapping, here
represented as an order-indexed list, whose keys are exactly 0..M, that is,
whose length is M + 1, where M = max_order when given and floor(len(x0)/2)
otherwise. -/
theorem nfchoa_sos_keys {S : Type} (besselap : ℕ → List ℂ)
    (zpk2sos : List ℂ → List ℂ → ℝ → S) (x0 : List Vec3) (r0 : ℝ)
    (npw xs : Vec3) (max_order : Option ℕ) (c fs : ℝ) :
    (nfchoa_25d_plane besselap zpk2sos x0 r0 npw max_order c fs).2.2.1.length =
      max_order.getD (x0.length / 2) + 1 ∧
    (nfchoa_25d_point besselap zpk2sos x0 r0 xs max_order c fs).2.2.1.length =
      max_order.getD (x0.length / 2) + 1 := by
  constructor <;>
  · simp only [nfchoa_25d_plane, nfchoa_25d_point, List.length_map,
      List.length_range]
    cases max_order <;> rfl

end Sfs
